import Mathlib

/-!
The cache codec, the variable store and the placeholder resolver of gocu.

A shallow embedding of `internal/cache/vars.go` and of the placeholder
resolver of `cmd/root.go`.

Modelling conventions.
* A Go string is a sequence of code points (`List Char`). On well-formed
  UTF-8 text, searching for a well-formed pattern byte by byte, as the
  `strings` package does, finds the same occurrences as searching code
  point by code point; the regular expression works on code points.
* The functions of the Go standard library that the source calls
  (`strings.Split`, `strings.SplitSeq`, `strings.Join`, `strings.Replace`,
  `regexp.FindAllString`) are modelled by their documented behaviour.
* A Go `map[string]string` is an association list with one entry per name;
  the order of the list is not observable except through `range`, whose
  iteration order is left arbitrary.
* The cache file is one optional text; file-system calls do not fail.
* Log lines are output only and are not part of the state.
-/

namespace Gocu

/-- Text: a sequence of code points. -/
abbrev Str := List Char

/-! ## Standard-library string functions -/

/-- Go `strings.Cut`: the text before and after the leftmost occurrence of
`sep`, or `none` when `sep` does not occur. -/
def Cut (sep : Str) : Str → Option (Str × Str)
  | [] => if sep = [] then some ([], []) else none
  | c :: cs =>
    if sep <+: c :: cs then some ([], (c :: cs).drop sep.length)
    else
      match Cut sep cs with
      | some (b, a) => some (c :: b, a)
      | none => none

/-- The cutting loop of `strings.Split`: at most `fuel` cuts. -/
def splitLoop (sep : Str) : Nat → Str → List Str
  | 0, s => [s]
  | fuel + 1, s =>
    match Cut sep s with
    | some (b, a) => b :: splitLoop sep fuel a
    | none => [s]

/-- Go `strings.Split(s, sep)` (and the sequence `strings.SplitSeq` yields):
the pieces of `s` between the non-overlapping occurrences of `sep`, found
left to right. An empty `sep` explodes `s` into its characters. Every cut
consumes at least one character, so `s.length` cuts are always enough. -/
def Split (s sep : Str) : List Str :=
  if sep = [] then s.map (fun c => [c]) else splitLoop sep s.length s

/-- Go `strings.Join(elems, sep)`. -/
def Join : List Str → Str → Str
  | [], _ => []
  | [a], _ => a
  | a :: b :: rest, sep => a ++ sep ++ Join (b :: rest) sep

/-- The replacement loop of `strings.Replace` for a non-empty `old`:
replaces the first `n` non-overlapping occurrences. -/
def replaceLoop (old new : Str) : Nat → Str → Str
  | 0, s => s
  | n + 1, s =>
    match Cut old s with
    | some (b, a) => b ++ new ++ replaceLoop old new n a
    | none => s

/-- The loop of `strings.Replace` for an empty `old`, after the first
insertion: `new` is written after each of the next `n` characters. -/
def insertLoop (new : Str) : Nat → Str → Str
  | 0, s => s
  | _ + 1, [] => []
  | n + 1, c :: cs => c :: (new ++ insertLoop new n cs)

/-- Go `strings.Replace(s, old, new, n)`: the first `n` non-overlapping
occurrences of `old` replaced by `new`; all of them when `n < 0`. -/
def Replace (s old new : Str) (n : Int) : Str :=
  if old = new ∨ n = 0 then s
  else if old = [] then
    new ++ insertLoop new ((if n < 0 then s.length + 1 else n.toNat) - 1) s
  else replaceLoop old new (if n < 0 then s.length + 1 else n.toNat) s

/-! ## internal/cache/vars.go: constants and codec -/

/-- The zero-width space U+200B. -/
def zwsp : Char := Char.ofNat 0x200B

/-- Source: `const separator`. -/
def separator : Str := [zwsp]

/-- Source: `const pairSep = separator + separator`. -/
def pairSep : Str := separator ++ separator

/-- Source: `const nameValPairSep = "=" + separator`. -/
def nameValPairSep : Str := [Char.ofNat 61] ++ separator

/-- A Go `map[string]string`. -/
abbrev VarMap := List (Str × Str)

/-- The comma-ok lookup `val, exists := m[name]`. -/
def mapGet (m : VarMap) (name : Str) : Option Str :=
  match m with
  | [] => none
  | (k, v) :: rest => if k = name then some v else mapGet rest name

/-- The assignment `m[name] = value`. -/
def mapSet (m : VarMap) (name value : Str) : VarMap :=
  match m with
  | [] => [(name, value)]
  | (k, v) :: rest =>
    if k = name then (k, value) :: rest else (k, v) :: mapSet rest name value

/-- The builtin `delete(m, name)`. -/
def mapDelete (m : VarMap) (name : Str) : VarMap :=
  match m with
  | [] => []
  | (k, v) :: rest =>
    if k = name then mapDelete rest name else (k, v) :: mapDelete rest name

/-- The error values the cache package builds with `fmt.Errorf`. -/
inductive CacheError where
  /-- `"Variable %q does not exist"` (GetVariable). -/
  | doesNotExist (name : Str)
  /-- `"Variable named %q (value=%s) already exists. Use modify command to override."` -/
  | alreadyExists (name val : Str)
  /-- `"Variable named %q does not exist"` (RemoveVariable). -/
  | namedDoesNotExist (name : Str)
  deriving DecidableEq, Repr

/-- The ways the process stops instead of returning. -/
inductive Abort where
  /-- Runtime panic: index out of range at `aux[1]`. -/
  | indexOutOfRange
  /-- `log.Fatal(err)` in the resolver. -/
  | fatal (err : CacheError)
  deriving DecidableEq, Repr

deriving instance DecidableEq for Except

/-- The body of the loop of `parseCacheFileContent` over the records. -/
def parseLoop : List Str → VarMap → Except Abort VarMap
  | [], res => .ok res
  | pair :: rest, res =>
    match Split pair nameValPairSep with
    | name :: val :: _ => parseLoop rest (mapSet res name val)
    | _ => .error .indexOutOfRange

/-- Source: `parseCacheFileContent`. -/
def parseCacheFileContent (content : Str) : Except Abort VarMap :=
  parseLoop (Split content pairSep) []

/-- The record `fmt.Sprintf("%s%s%s", name, nameValPairSep, val)`. -/
def pairText (p : Str × Str) : Str := p.1 ++ nameValPairSep ++ p.2

/-- The text `save` writes when `range` visits the entries in the order
`entries`. -/
def saveText (entries : List (Str × Str)) : Str :=
  Join (entries.map pairText) pairSep

/-- The decoding step of `loadCache`: the empty text is the empty mapping,
any other text goes through `parseCacheFileContent`. -/
def decodeCache (c : Str) : Except Abort VarMap :=
  if c ≠ [] then parseCacheFileContent c else .ok []

/-! ## internal/cache/vars.go: the store -/

/-- The process-wide state: the package variable `varsCache` (`none` while
it is nil) and the content of the cache file (`none` while the file does
not exist). -/
structure Store where
  varsCache : Option VarMap
  file : Option Str
  deriving DecidableEq, Repr

/-- Source: `exists`. -/
def cacheExists (st : Store) : Bool := st.file.isSome

/-- Source: `create`. -/
def create (st : Store) : Store := { st with file := some [] }

/-- Source: `cacheFileContent`. -/
def cacheFileContent (st : Store) : Str := st.file.getD []

/-- Source: `loadCache`; returns the loaded mapping with the new state. -/
def loadCache (st : Store) : Except Abort (VarMap × Store) :=
  let st1 := if cacheExists st then st else create st
  match decodeCache (cacheFileContent st1) with
  | .ok m => .ok (m, { st1 with varsCache := some m })
  | .error e => .error e

/-- Source: `Variables`. -/
def Variables (st : Store) : Except Abort (VarMap × Store) :=
  match st.varsCache with
  | some m => .ok (m, st)
  | none => loadCache st

/-- Source: `save`. The parameter `iter` is the order in which `range`
visits the entries of a mapping. -/
def save (iter : VarMap → List (Str × Str)) (st : Store) : Except Abort Store :=
  match Variables st with
  | .ok (m, st1) => .ok { st1 with file := some (saveText (iter m)) }
  | .error e => .error e

/-- Source: `setVariable`. -/
def setVariable (iter : VarMap → List (Str × Str)) (name value : Str) (st : Store) :
    Except Abort Store :=
  match Variables st with
  | .ok (m, st1) => save iter { st1 with varsCache := some (mapSet m name value) }
  | .error e => .error e

/-- Source: `GetVariable`. -/
def GetVariable (name : Str) (st : Store) : Except Abort (Except CacheError Str × Store) :=
  match Variables st with
  | .ok (m, st1) =>
    match mapGet m name with
    | none => .ok (.error (.doesNotExist name), st1)
    | some val => .ok (.ok val, st1)
  | .error e => .error e

/-- Source: `AddVariable`; the returned option is the Go `error` (`none` is nil). -/
def AddVariable (iter : VarMap → List (Str × Str)) (name value : Str) (st : Store) :
    Except Abort (Option CacheError × Store) :=
  match Variables st with
  | .ok (vars, st1) =>
    match mapGet vars name with
    | some val => .ok (some (.alreadyExists name val), st1)
    | none =>
      match setVariable iter name value st1 with
      | .ok st2 => .ok (none, st2)
      | .error e => .error e
  | .error e => .error e

/-- Source: `ModifyVariable`. -/
def ModifyVariable (iter : VarMap → List (Str × Str)) (name value : Str) (st : Store) :
    Except Abort (Option CacheError × Store) :=
  match GetVariable name st with
  | .ok (.error err, st1) => .ok (some err, st1)
  | .ok (.ok _, st1) =>
    match setVariable iter name value st1 with
    | .ok st2 => .ok (none, st2)
    | .error e => .error e
  | .error e => .error e

/-- Source: `RemoveVariable`. -/
def RemoveVariable (iter : VarMap → List (Str × Str)) (name : Str) (st : Store) :
    Except Abort (Option CacheError × Store) :=
  match Variables st with
  | .ok (vars, st1) =>
    match mapGet vars name with
    | none => .ok (some (.namedDoesNotExist name), st1)
    | some _ =>
      match Variables st1 with
      | .ok (m, st2) =>
        match save iter { st2 with varsCache := some (mapDelete m name) } with
        | .ok st3 => .ok (none, st3)
        | .error e => .error e
      | .error e => .error e
  | .error e => .error e

/-! ## cmd/root.go: the placeholder resolver -/

/-- The character `{`. -/
def lbrace : Char := Char.ofNat 123

/-- The character `}`. -/
def rbrace : Char := Char.ofNat 125

/-- The line feed, the one character `.` does not match. -/
def newline : Char := Char.ofNat 10

/-- The opening delimiter, two `lbrace`. -/
def openDelim : Str := [lbrace, lbrace]

/-- The closing delimiter, two `rbrace`. -/
def closeDelim : Str := [rbrace, rbrace]

/-- The lazy repetition of the pattern after its first character: the
shortest run of characters other than line feed that is followed by the
closing delimiter. Returns that run and the text after the delimiter. -/
def lazyBody : Str → Option (Str × Str)
  | [] => none
  | c :: cs =>
    if closeDelim <+: c :: cs then some ([], cs.drop 1)
    else if c = newline then none
    else
      match lazyBody cs with
      | some (b, r) => some (c :: b, r)
      | none => none

/-- The match of the regular expression (opening delimiter, `.+?`, closing
delimiter) anchored at the start of `s`: the matched text and the rest. -/
def matchAt (s : Str) : Option (Str × Str) :=
  match s with
  | a :: b :: c :: cs =>
    if a = lbrace ∧ b = lbrace ∧ c ≠ newline then
      match lazyBody cs with
      | some (body, r) => some (a :: b :: c :: body ++ closeDelim, r)
      | none => none
    else none
  | _ => none

/-- The scan of `FindAllString`: leftmost match, then on from its end. -/
def findLoop : Nat → Str → List Str
  | 0, _ => []
  | fuel + 1, s =>
    match matchAt s with
    | some (m, r) => m :: findLoop fuel r
    | none =>
      match s with
      | [] => []
      | _ :: cs => findLoop fuel cs

/-- Source: `extractVarsPlaceholders`. Every step of the scan consumes at
least one character, so `s.length` steps are always enough. -/
def extractVarsPlaceholders (s : Str) : List Str := findLoop s.length s

/-- The name `replaceVars` computes from a match `p`. -/
def varNameOf (p : Str) : Str :=
  Replace (Replace p openDelim [] 1) closeDelim [] 1

/-- The loop of `replaceVars` over the matches. -/
def resolveLoop : List Str → Str → Store → Except Abort (Str × Store)
  | [], str, st => .ok (str, st)
  | p :: ps, str, st =>
    match GetVariable (varNameOf p) st with
    | .ok (.ok varVal, st1) => resolveLoop ps (Replace str p varVal (-1)) st1
    | .ok (.error err, _) => .error (.fatal err)
    | .error e => .error e

/-- Source: `replaceVars`. -/
def replaceVars (strToReplace : Str) (st : Store) : Except Abort (Str × Store) :=
  if strToReplace ≠ [] then
    resolveLoop (extractVarsPlaceholders strToReplace) strToReplace st
  else .ok (strToReplace, st)

/-! ## The inputs the resolver claims speak about -/

/-- The placeholder text for the name `n`: `n` between the delimiters. -/
def placeholder (n : Str) : Str := openDelim ++ n ++ closeDelim

/-- The text `x t₁ x t₂ … x tₖ`: one copy of `x` before each segment. -/
def fill (x : Str) : List Str → Str
  | [] => []
  | t :: ts => x ++ t ++ fill x ts

/-- A match with its delimiters stripped: without its first two and its
last two characters. -/
def stripDelims (p : Str) : Str := ((p.drop 2).dropLast).dropLast

/-! ## Concrete inputs -/

/-- A two-entry mapping. -/
def exampleVars : VarMap := [("a".toList, "1".toList), ("b".toList, "2".toList)]

/-- A loaded store that holds `exampleVars`, with the file `save` wrote. -/
def exampleStore : Store := ⟨some exampleVars, some (saveText exampleVars)⟩

/-- A mapping for the resolver: `host`, `id`, and a name `x` whose value
starts with `lbrace`, `x`, the closing delimiter and ends with `lbrace`. -/
def resolverVars : VarMap :=
  [("host".toList, "example.com".toList), ("id".toList, "7".toList),
    ("x".toList, "\x7bx\x7d\x7d\x7b".toList)]

/-- A loaded store that holds `resolverVars`. -/
def resolverStore : Store := ⟨some resolverVars, some (saveText resolverVars)⟩

/-- A loaded store whose only variable is named `x`, closing delimiter. -/
def shiftedNameStore : Store :=
  ⟨some [("x\x7d\x7d".toList, "w".toList)], some (saveText [("x\x7d\x7d".toList, "w".toList)])⟩

/-- A loaded store whose only variable is named closing delimiter, `x`. -/
def oddNameStore : Store :=
  ⟨some [("\x7d\x7dx".toList, "v".toList)], some (saveText [("\x7d\x7dx".toList, "v".toList)])⟩

/-! ## Facts about the string functions -/

theorem Cut_eq_append {sep : Str} {s b a : Str} (h : Cut sep s = some (b, a)) :
    s = b ++ sep ++ a := by
  induction s generalizing b with
  | nil =>
    unfold Cut at h
    split at h
    · rename_i hs
      simp only [Option.some.injEq, Prod.mk.injEq] at h
      obtain ⟨rfl, rfl⟩ := h
      simp [hs]
    · simp at h
  | cons c cs ih =>
    unfold Cut at h
    split at h
    · rename_i hp
      simp only [Option.some.injEq, Prod.mk.injEq] at h
      obtain ⟨rfl, rfl⟩ := h
      simpa using (List.prefix_iff_eq_append.mp hp).symm
    · cases hc : Cut sep cs with
      | none => simp [hc] at h
      | some q =>
        obtain ⟨b1, a1⟩ := q
        simp only [hc, Option.some.injEq, Prod.mk.injEq] at h
        obtain ⟨rfl, rfl⟩ := h
        have := ih hc
        simp [this]

theorem Cut_none {sep s : Str} (hsep : sep ≠ []) (h : ¬ sep <:+: s) : Cut sep s = none := by
  induction s with
  | nil => simp [Cut, hsep]
  | cons c cs ih =>
    have h1 : ¬ sep <+: c :: cs := fun hp => h hp.isInfix
    have h2 : ¬ sep <:+: cs := fun hi => h (hi.trans (List.suffix_cons c cs).isInfix)
    simp [Cut, h1, ih h2]

theorem Cut_some_infix {sep s b a : Str} (h : Cut sep s = some (b, a)) : sep <:+: s := by
  rw [Cut_eq_append h]
  exact ⟨b, a, rfl⟩

theorem Cut_isSome_of_infix {sep s : Str} (h : sep <:+: s) : ∃ b a, Cut sep s = some (b, a) := by
  induction s with
  | nil =>
    have : sep = [] := List.infix_nil.mp h
    exact ⟨[], [], by simp [Cut, this]⟩
  | cons c cs ih =>
    by_cases hp : sep <+: c :: cs
    · exact ⟨[], (c :: cs).drop sep.length, by simp [Cut, hp]⟩
    · rcases List.infix_cons_iff.mp h with h1 | h1
      · exact absurd h1 hp
      · obtain ⟨b, a, hba⟩ := ih h1
        exact ⟨c :: b, a, by simp [Cut, hp, hba]⟩

/-- When `sep` does not occur in `a` followed by all but the last character
of `sep`, its leftmost occurrence in `a ++ sep ++ b` is the one after `a`. -/
theorem Cut_append {sep a : Str} (b : Str) (h : ¬ sep <:+: a ++ sep.dropLast) :
    Cut sep (a ++ sep ++ b) = some (a, b) := by
  have hsep : sep ≠ [] := by
    rintro rfl
    exact h ⟨a, [], by simp⟩
  induction a with
  | nil =>
    obtain ⟨x, xs, rfl⟩ := List.exists_cons_of_ne_nil hsep
    have hp : x :: xs <+: x :: (xs ++ b) := ⟨b, by simp⟩
    simp only [List.nil_append, List.cons_append]
    unfold Cut
    rw [if_pos hp]
    simp
  | cons c cs ih =>
    have hlen : sep.length ≤ (c :: cs ++ sep.dropLast).length := by
      have := List.length_pos.mpr hsep
      simp only [List.length_append, List.length_cons, List.length_dropLast]
      omega
    have h1 : ¬ sep <+: c :: (cs ++ sep ++ b) := by
      intro hp
      have hq : c :: cs ++ sep.dropLast <+: c :: (cs ++ sep ++ b) := by
        obtain ⟨t, ht⟩ := List.dropLast_prefix sep
        refine ⟨t ++ b, ?_⟩
        simp only [List.cons_append, List.append_assoc]
        rw [← List.append_assoc sep.dropLast t b, ht]
      exact h (List.prefix_of_prefix_length_le hp hq hlen).isInfix
    have h2 : ¬ sep <:+: cs ++ sep.dropLast := fun hi =>
      h (hi.trans (List.suffix_cons c _).isInfix)
    simp only [List.cons_append]
    unfold Cut
    rw [if_neg h1, ih h2]

/-- An occurrence of a text cannot start inside a prefix that lacks its
first character. -/
theorem infix_append_of_head_not_mem {x : Char} {xs a rest : Str} (hx : x ∉ a) :
    x :: xs <:+: a ++ rest ↔ x :: xs <:+: rest := by
  induction a with
  | nil => simp
  | cons c cs ih =>
    simp only [List.mem_cons, not_or] at hx
    rw [List.cons_append, List.infix_cons_iff, List.cons_prefix_cons, ih hx.2]
    constructor
    · rintro (⟨h, _⟩ | h)
      · exact absurd h hx.1
      · exact h
    · exact Or.inr

theorem Cut_length_lt {sep s b a : Str} (hsep : sep ≠ []) (h : Cut sep s = some (b, a)) :
    a.length < s.length := by
  have h1 := congrArg List.length (Cut_eq_append h)
  have h2 := List.length_pos.mpr hsep
  simp only [List.length_append] at h1
  omega

theorem Cut_nil_of_ne {sep : Str} (hsep : sep ≠ []) : Cut sep [] = none := by
  simp [Cut, hsep]

/-- Fuel beyond the length of the text does not change the result of the
cutting loop. -/
theorem splitLoop_stable {sep : Str} (hsep : sep ≠ []) :
    ∀ (n m : Nat) (s : Str), s.length ≤ n → s.length ≤ m →
      splitLoop sep n s = splitLoop sep m s := by
  intro n
  induction n with
  | zero =>
    intro m s hn _
    have hs : s = [] := List.length_eq_zero.mp (Nat.le_zero.mp hn)
    subst hs
    cases m with
    | zero => rfl
    | succ m => simp [splitLoop, Cut_nil_of_ne hsep]
  | succ n ih =>
    intro m s hn hm
    cases m with
    | zero =>
      have hs : s = [] := List.length_eq_zero.mp (Nat.le_zero.mp hm)
      subst hs
      simp [splitLoop, Cut_nil_of_ne hsep]
    | succ m =>
      cases hc : Cut sep s with
      | none => simp [splitLoop, hc]
      | some q =>
        obtain ⟨b, a⟩ := q
        have hlt := Cut_length_lt hsep hc
        simp only [splitLoop, hc]
        rw [ih m a (by omega) (by omega)]

theorem Split_of_Cut_none {sep s : Str} (hsep : sep ≠ []) (h : Cut sep s = none) :
    Split s sep = [s] := by
  unfold Split
  rw [if_neg hsep]
  cases hl : s.length with
  | zero => rfl
  | succ n => simp [splitLoop, h]

theorem Split_of_Cut_some {sep s b a : Str} (hsep : sep ≠ [])
    (h : Cut sep s = some (b, a)) : Split s sep = b :: Split a sep := by
  have hlt := Cut_length_lt hsep h
  unfold Split
  rw [if_neg hsep, if_neg hsep]
  cases hl : s.length with
  | zero => omega
  | succ n =>
    simp only [splitLoop, h]
    rw [splitLoop_stable hsep n a.length a (by omega) (le_refl _)]

/-- Fuel beyond the length of the text does not change the result of the
replacement loop. -/
theorem replaceLoop_stable {old : Str} (new : Str) (hold : old ≠ []) :
    ∀ (n m : Nat) (s : Str), s.length ≤ n → s.length ≤ m →
      replaceLoop old new n s = replaceLoop old new m s := by
  intro n
  induction n with
  | zero =>
    intro m s hn _
    have hs : s = [] := List.length_eq_zero.mp (Nat.le_zero.mp hn)
    subst hs
    cases m with
    | zero => rfl
    | succ m => simp [replaceLoop, Cut_nil_of_ne hold]
  | succ n ih =>
    intro m s hn hm
    cases m with
    | zero =>
      have hs : s = [] := List.length_eq_zero.mp (Nat.le_zero.mp hm)
      subst hs
      simp [replaceLoop, Cut_nil_of_ne hold]
    | succ m =>
      cases hc : Cut old s with
      | none => simp [replaceLoop, hc]
      | some q =>
        obtain ⟨b, a⟩ := q
        have hlt := Cut_length_lt hold hc
        simp only [replaceLoop, hc]
        rw [ih m a (by omega) (by omega)]

theorem Replace_all_of_Cut_none {old s : Str} (new : Str) (h : Cut old s = none) :
    Replace s old new (-1) = s := by
  unfold Replace
  by_cases h1 : old = new ∨ (-1 : Int) = 0
  · rw [if_pos h1]
  · rw [if_neg h1]
    have hold : old ≠ [] := by
      rintro rfl
      cases s <;> simp [Cut] at h
    rw [if_neg hold]
    simp [replaceLoop, h]

theorem Replace_all_of_Cut_some {old s b a : Str} (new : Str) (hold : old ≠ [])
    (h : Cut old s = some (b, a)) :
    Replace s old new (-1) = b ++ new ++ Replace a old new (-1) := by
  have hlt := Cut_length_lt hold h
  unfold Replace
  by_cases h1 : old = new ∨ (-1 : Int) = 0
  · rw [if_pos h1, if_pos h1]
    rcases h1 with rfl | h1
    · exact Cut_eq_append h
    · omega
  · rw [if_neg h1, if_neg h1, if_neg hold, if_neg hold]
    have hneg : ((-1 : Int) < 0) = True := by simp
    simp only [hneg, if_true]
    rw [replaceLoop, h]
    simp only
    rw [replaceLoop_stable new hold s.length (a.length + 1) a (by omega) (by omega)]

theorem Replace_one_of_Cut_some {old s b a : Str} (new : Str) (hold : old ≠ [])
    (h : Cut old s = some (b, a)) : Replace s old new 1 = b ++ new ++ a := by
  unfold Replace
  by_cases h1 : old = new ∨ (1 : Int) = 0
  · rw [if_pos h1]
    rcases h1 with rfl | h1
    · exact Cut_eq_append h
    · omega
  · rw [if_neg h1, if_neg hold]
    simp [replaceLoop, h]

theorem Replace_one_of_Cut_none {old s : Str} (new : Str) (hold : old ≠ [])
    (h : Cut old s = none) : Replace s old new 1 = s := by
  unfold Replace
  by_cases h1 : old = new ∨ (1 : Int) = 0
  · rw [if_pos h1]
  · rw [if_neg h1, if_neg hold]
    simp [replaceLoop, h]

/-! ## Facts about the codec -/

theorem nameValPairSep_ne_nil : nameValPairSep ≠ [] := by decide

theorem pairSep_ne_nil : pairSep ≠ [] := by decide

theorem zwsp_mem_nameValPairSep : zwsp ∈ nameValPairSep := by decide

theorem pairText_eq (n v : Str) : pairText (n, v) = n ++ (Char.ofNat 61 :: zwsp :: v) := by
  simp [pairText, nameValPairSep, separator]

theorem pairText_ne_nil (p : Str × Str) : pairText p ≠ [] := by
  simp [pairText, nameValPairSep, separator]

/-- A record whose name and value are free of the separator splits into
exactly its name and its value. -/
theorem Split_pairText {n v : Str} (hn : zwsp ∉ n) (hv : zwsp ∉ v) :
    Split (pairText (n, v)) nameValPairSep = [n, v] := by
  have h1 : Cut nameValPairSep (n ++ nameValPairSep ++ v) = some (n, v) := by
    apply Cut_append
    intro hi
    have hmem := hi.subset zwsp_mem_nameValPairSep
    have hd : nameValPairSep.dropLast = [Char.ofNat 61] := by decide
    rw [hd, List.mem_append, List.mem_singleton] at hmem
    rcases hmem with h | h
    · exact hn h
    · exact absurd h (by decide)
  have h2 : Cut nameValPairSep v = none :=
    Cut_none nameValPairSep_ne_nil (fun hi => hv (hi.subset zwsp_mem_nameValPairSep))
  show Split (n ++ nameValPairSep ++ v) nameValPairSep = [n, v]
  rw [Split_of_Cut_some nameValPairSep_ne_nil h1, Split_of_Cut_none nameValPairSep_ne_nil h2]

/-- The doubled separator does not occur inside a record. -/
theorem pairSep_not_infix_pairText {n v : Str} (hn : zwsp ∉ n) (hv : zwsp ∉ v) :
    ¬ pairSep <:+: pairText (n, v) := by
  intro hi
  rw [pairText_eq] at hi
  have hi2 : zwsp :: [zwsp] <:+: n ++ (Char.ofNat 61 :: zwsp :: v) := hi
  rw [infix_append_of_head_not_mem hn, List.infix_cons_iff, List.cons_prefix_cons,
    List.infix_cons_iff] at hi2
  rcases hi2 with ⟨h, _⟩ | h | h
  · exact absurd h (by decide)
  · rw [List.cons_prefix_cons] at h
    have h := h.2
    cases v with
    | nil => simp at h
    | cons d ds =>
      rw [List.cons_prefix_cons] at h
      exact hv (by simp [h.1])
  · exact hv (h.subset (by simp))

/-- The doubled separator does not occur in a record with a non-empty value
followed by one separator: in the saved text the first doubled separator
after such a record is the join itself. -/
theorem pairSep_not_infix_pairText_sep {n v : Str} (hn : zwsp ∉ n) (hv : zwsp ∉ v)
    (hne : v ≠ []) : ¬ pairSep <:+: pairText (n, v) ++ pairSep.dropLast := by
  intro hi
  rw [pairText_eq] at hi
  have hi2 : zwsp :: [zwsp] <:+: n ++ (Char.ofNat 61 :: zwsp :: (v ++ [zwsp])) := by
    simpa [pairSep, separator] using hi
  rw [infix_append_of_head_not_mem hn, List.infix_cons_iff, List.cons_prefix_cons,
    List.infix_cons_iff] at hi2
  rcases hi2 with ⟨h, _⟩ | h | h
  · exact absurd h (by decide)
  · rw [List.cons_prefix_cons] at h
    have h := h.2
    cases v with
    | nil => exact hne rfl
    | cons d ds =>
      rw [List.cons_append, List.cons_prefix_cons] at h
      exact hv (by simp [h.1])
  · rw [infix_append_of_head_not_mem hv] at h
    have := h.length_le
    simp at this

theorem Join_cons_cons (a b : Str) (rest : List Str) (sep : Str) :
    Join (a :: b :: rest) sep = a ++ sep ++ Join (b :: rest) sep := rfl

/-- Splitting the saved text at the doubled separator gives back the
records, as soon as only the entry emitted last may have an empty value. -/
theorem Split_saveText (ord : List (Str × Str)) (hne : ord ≠ [])
    (hsep : ∀ p ∈ ord, zwsp ∉ p.1 ∧ zwsp ∉ p.2)
    (hval : ∀ p ∈ ord.dropLast, p.2 ≠ []) :
    Split (saveText ord) pairSep = ord.map pairText := by
  induction ord with
  | nil => exact absurd rfl hne
  | cons p rest ih =>
    obtain ⟨n, v⟩ := p
    have hp := hsep (n, v) (List.mem_cons_self _ _)
    cases rest with
    | nil =>
      show Split (pairText (n, v)) pairSep = [pairText (n, v)]
      exact Split_of_Cut_none pairSep_ne_nil
        (Cut_none pairSep_ne_nil (pairSep_not_infix_pairText hp.1 hp.2))
    | cons q rest =>
      have hv : v ≠ [] := hval (n, v) (by simp [List.dropLast])
      have hcut : Cut pairSep (pairText (n, v) ++ pairSep ++ saveText (q :: rest))
          = some (pairText (n, v), saveText (q :: rest)) :=
        Cut_append _ (pairSep_not_infix_pairText_sep hp.1 hp.2 hv)
      have hrec := ih (by simp)
        (fun r hr => hsep r (List.mem_cons_of_mem _ hr))
        (fun r hr => hval r (by simp [List.dropLast, hr]))
      show Split (pairText (n, v) ++ pairSep ++ saveText (q :: rest)) pairSep = _
      rw [Split_of_Cut_some pairSep_ne_nil hcut, hrec]
      rfl

/-- Decoding well-formed records assigns the entries in order. -/
theorem parseLoop_records (ord : List (Str × Str)) (res : VarMap)
    (hsep : ∀ p ∈ ord, zwsp ∉ p.1 ∧ zwsp ∉ p.2) :
    parseLoop (ord.map pairText) res
      = .ok (ord.foldl (fun m p => mapSet m p.1 p.2) res) := by
  induction ord generalizing res with
  | nil => rfl
  | cons p rest ih =>
    obtain ⟨n, v⟩ := p
    have hp := hsep (n, v) (List.mem_cons_self _ _)
    simp only [List.map_cons, parseLoop, Split_pairText hp.1 hp.2, List.foldl_cons]
    exact ih _ (fun r hr => hsep r (List.mem_cons_of_mem _ hr))

theorem mapGet_eq_none_iff (m : VarMap) (k : Str) :
    mapGet m k = none ↔ k ∉ m.map Prod.fst := by
  induction m with
  | nil => simp [mapGet]
  | cons p rest ih =>
    obtain ⟨a, b⟩ := p
    by_cases h : a = k
    · simp [mapGet, h]
    · simp [mapGet, h, ih, Ne.symm h]

theorem mapGet_eq_some_iff (m : VarMap) (hnd : (m.map Prod.fst).Nodup) (k v : Str) :
    mapGet m k = some v ↔ (k, v) ∈ m := by
  induction m with
  | nil => simp [mapGet]
  | cons p rest ih =>
    obtain ⟨a, b⟩ := p
    simp only [List.map_cons, List.nodup_cons] at hnd
    by_cases h : a = k
    · subst h
      have hno : (a, v) ∉ rest := fun hm => hnd.1 (List.mem_map_of_mem Prod.fst hm)
      simp [mapGet, hno, eq_comm]
    · simp [mapGet, h, ih hnd.2, Ne.symm h]

/-- Two listings of the same entries, one entry per name, are the same
mapping. -/
theorem mapGet_perm {m1 m2 : VarMap} (hnd : (m2.map Prod.fst).Nodup) (hp : m1.Perm m2)
    (k : Str) : mapGet m1 k = mapGet m2 k := by
  have hnd1 : (m1.map Prod.fst).Nodup := (hp.map Prod.fst).nodup_iff.mpr hnd
  apply Option.ext
  intro v
  simp only [Option.mem_def]
  rw [mapGet_eq_some_iff m1 hnd1, mapGet_eq_some_iff m2 hnd, hp.mem_iff]

theorem mapSet_of_absent (m : VarMap) (k v : Str) (h : mapGet m k = none) :
    mapSet m k v = m ++ [(k, v)] := by
  induction m with
  | nil => rfl
  | cons p rest ih =>
    obtain ⟨a, b⟩ := p
    by_cases hk : a = k
    · simp [mapGet, hk] at h
    · simp only [mapGet, hk, if_false] at h
      simp [mapSet, hk, ih h]

theorem foldl_mapSet_fresh (ord : List (Str × Str)) (res : VarMap)
    (hnd : ((res ++ ord).map Prod.fst).Nodup) :
    ord.foldl (fun m p => mapSet m p.1 p.2) res = res ++ ord := by
  induction ord generalizing res with
  | nil => simp
  | cons p rest ih =>
    obtain ⟨n, v⟩ := p
    have habs : mapGet res n = none := by
      rw [mapGet_eq_none_iff]
      intro hmem
      rw [List.map_append, List.nodup_append] at hnd
      exact hnd.2.2 hmem (by simp)
    simp only [List.foldl_cons]
    rw [mapSet_of_absent res n v habs, ih (res ++ [(n, v)]) (by simpa using hnd)]
    simp

theorem Join_ne_nil {a : Str} (rest : List Str) (sep : Str) (ha : a ≠ []) :
    Join (a :: rest) sep ≠ [] := by
  cases rest with
  | nil => exact ha
  | cons b rest => simp [Join, ha]

/-- Decoding the saved text, when only the entry emitted last may have an
empty value, returns the entries in the order they were emitted. -/
theorem decodeCache_saveText (ord : List (Str × Str))
    (hkeys : (ord.map Prod.fst).Nodup)
    (hsep : ∀ p ∈ ord, zwsp ∉ p.1 ∧ zwsp ∉ p.2)
    (hval : ∀ p ∈ ord.dropLast, p.2 ≠ []) :
    decodeCache (saveText ord) = .ok ord := by
  cases ord with
  | nil => rfl
  | cons p rest =>
    have hne : saveText (p :: rest) ≠ [] := Join_ne_nil _ _ (pairText_ne_nil p)
    unfold decodeCache parseCacheFileContent
    rw [if_pos hne, Split_saveText _ (by simp) hsep hval, parseLoop_records _ _ hsep,
      foldl_mapSet_fresh _ _ (by simpa using hkeys)]
    simp

/-! ## Facts about the mapping and the store -/

theorem mapGet_mapSet_self (m : VarMap) (k v : Str) : mapGet (mapSet m k v) k = some v := by
  induction m with
  | nil => simp [mapSet, mapGet]
  | cons p rest ih =>
    obtain ⟨a, b⟩ := p
    by_cases h : a = k
    · simp [mapSet, mapGet, h]
    · simp [mapSet, mapGet, h, ih]

theorem mapGet_mapSet_ne (m : VarMap) (k v k2 : Str) (hne : k2 ≠ k) :
    mapGet (mapSet m k v) k2 = mapGet m k2 := by
  induction m with
  | nil => simp [mapSet, mapGet, Ne.symm hne]
  | cons p rest ih =>
    obtain ⟨a, b⟩ := p
    by_cases h : a = k
    · subst h
      simp [mapSet, mapGet, Ne.symm hne]
    · by_cases h2 : a = k2
      · subst h2
        simp [mapSet, mapGet, h]
      · simp [mapSet, mapGet, h, h2, ih]

theorem mapGet_mapDelete_self (m : VarMap) (k : Str) : mapGet (mapDelete m k) k = none := by
  induction m with
  | nil => rfl
  | cons p rest ih =>
    obtain ⟨a, b⟩ := p
    by_cases h : a = k
    · simp [mapDelete, h, ih]
    · simp [mapDelete, mapGet, h, ih]

theorem mapGet_mapDelete_ne (m : VarMap) (k k2 : Str) (hne : k2 ≠ k) :
    mapGet (mapDelete m k) k2 = mapGet m k2 := by
  induction m with
  | nil => rfl
  | cons p rest ih =>
    obtain ⟨a, b⟩ := p
    by_cases h : a = k
    · subst h
      simp [mapDelete, mapGet, Ne.symm hne, ih]
    · by_cases h2 : a = k2
      · subst h2
        simp [mapDelete, mapGet, h]
      · simp [mapDelete, mapGet, h, h2, ih]

theorem Variables_of_loaded {st : Store} {m : VarMap} (h : st.varsCache = some m) :
    Variables st = .ok (m, st) := by
  simp [Variables, h]

/-- What a successful `Variables()` leaves behind: the mapping is loaded, a
store that was loaded already is untouched, and an existing file keeps its
text. -/
theorem Variables_ok {st st1 : Store} {m : VarMap} (h : Variables st = .ok (m, st1)) :
    st1.varsCache = some m ∧ (st.varsCache ≠ none → st1 = st) ∧
      (st.file ≠ none → st1.file = st.file) := by
  unfold Variables at h
  cases hc : st.varsCache with
  | some m0 =>
    simp only [hc, Except.ok.injEq, Prod.mk.injEq] at h
    obtain ⟨rfl, rfl⟩ := h
    simp [hc]
  | none =>
    simp only [hc] at h
    unfold loadCache at h
    simp only at h
    split at h
    · rename_i m1 hd
      simp only [Except.ok.injEq, Prod.mk.injEq] at h
      obtain ⟨rfl, rfl⟩ := h
      refine ⟨rfl, fun hx => absurd rfl hx, fun hf => ?_⟩
      have : cacheExists st = true := by
        cases hfile : st.file with
        | none => exact absurd hfile hf
        | some c => simp [cacheExists, hfile]
      simp [this]
    · simp at h

theorem Variables_idem {st st1 : Store} {m : VarMap} (h : Variables st = .ok (m, st1)) :
    Variables st1 = .ok (m, st1) :=
  Variables_of_loaded (Variables_ok h).1

theorem GetVariable_of_absent {st st1 : Store} {m : VarMap}
    (h : Variables st = .ok (m, st1)) {name : Str} (hg : mapGet m name = none) :
    GetVariable name st = .ok (.error (.doesNotExist name), st1) := by
  simp [GetVariable, h, hg]

theorem GetVariable_of_present {st st1 : Store} {m : VarMap}
    (h : Variables st = .ok (m, st1)) {name val : Str} (hg : mapGet m name = some val) :
    GetVariable name st = .ok (.ok val, st1) := by
  simp [GetVariable, h, hg]

theorem setVariable_of_Variables (iter : VarMap → List (Str × Str)) {st st1 : Store}
    {m : VarMap} (h : Variables st = .ok (m, st1)) (name value : Str) :
    setVariable iter name value st =
      .ok ⟨some (mapSet m name value), some (saveText (iter (mapSet m name value)))⟩ := by
  unfold setVariable
  rw [h]
  simp only
  unfold save
  rw [Variables_of_loaded (m := mapSet m name value) rfl]

/-! ## Facts about the resolver -/

theorem lazyBody_length {s b r : Str} (h : lazyBody s = some (b, r)) :
    r.length < s.length := by
  induction s generalizing b with
  | nil => simp [lazyBody] at h
  | cons c cs ih =>
    unfold lazyBody at h
    split at h
    · simp only [Option.some.injEq, Prod.mk.injEq] at h
      obtain ⟨_, rfl⟩ := h
      simp only [List.length_drop, List.length_cons]
      omega
    · split at h
      · simp at h
      · cases hc : lazyBody cs with
        | none => simp [hc] at h
        | some q =>
          obtain ⟨b1, r1⟩ := q
          simp only [hc, Option.some.injEq, Prod.mk.injEq] at h
          obtain ⟨_, rfl⟩ := h
          have := ih hc
          simp only [List.length_cons]
          omega

theorem matchAt_length {s m r : Str} (h : matchAt s = some (m, r)) :
    r.length < s.length := by
  unfold matchAt at h
  split at h
  · rename_i a b c cs
    split at h
    · cases hc : lazyBody cs with
      | none => simp [hc] at h
      | some q =>
        obtain ⟨b1, r1⟩ := q
        simp only [hc, Option.some.injEq, Prod.mk.injEq] at h
        obtain ⟨_, rfl⟩ := h
        have := lazyBody_length hc
        simp only [List.length_cons]
        omega
    · simp at h
  · simp at h

theorem matchAt_nil : matchAt [] = none := rfl

/-- A match starts with the character `lbrace`. -/
theorem matchAt_none_of_head {c : Char} (cs : Str) (hc : c ≠ lbrace) :
    matchAt (c :: cs) = none := by
  unfold matchAt
  split
  · rename_i a b d ds heq
    simp only [List.cons.injEq] at heq
    obtain ⟨rfl, _⟩ := heq
    simp [hc]
  · rfl

/-- Fuel beyond the length of the text does not change the scan. -/
theorem findLoop_stable :
    ∀ (n m : Nat) (s : Str), s.length ≤ n → s.length ≤ m → findLoop n s = findLoop m s := by
  intro n
  induction n with
  | zero =>
    intro m s hn _
    have hs : s = [] := List.length_eq_zero.mp (Nat.le_zero.mp hn)
    subst hs
    cases m with
    | zero => rfl
    | succ m => simp [findLoop, matchAt_nil]
  | succ n ih =>
    intro m s hn hm
    cases m with
    | zero =>
      have hs : s = [] := List.length_eq_zero.mp (Nat.le_zero.mp hm)
      subst hs
      simp [findLoop, matchAt_nil]
    | succ m =>
      cases hc : matchAt s with
      | none =>
        cases s with
        | nil => simp [findLoop, hc]
        | cons c cs =>
          simp only [findLoop, hc]
          simp only [List.length_cons] at hn hm
          exact ih m cs (by omega) (by omega)
      | some q =>
        obtain ⟨x, r⟩ := q
        have hlt := matchAt_length hc
        simp only [findLoop, hc]
        rw [ih m r (by omega) (by omega)]

theorem extract_nil : extractVarsPlaceholders [] = [] := rfl

theorem extract_of_match {s x r : Str} (h : matchAt s = some (x, r)) :
    extractVarsPlaceholders s = x :: extractVarsPlaceholders r := by
  have hlt := matchAt_length h
  unfold extractVarsPlaceholders
  cases hl : s.length with
  | zero => omega
  | succ n =>
    simp only [findLoop, h]
    rw [findLoop_stable n r.length r (by omega) (le_refl _)]

theorem extract_cons_of_none {c : Char} {cs : Str} (h : matchAt (c :: cs) = none) :
    extractVarsPlaceholders (c :: cs) = extractVarsPlaceholders cs := by
  unfold extractVarsPlaceholders
  simp only [List.length_cons, findLoop, h]

/-- The scan skips a text free of the character `lbrace`. -/
theorem extract_append_of_not_mem {t : Str} (s : Str) (ht : lbrace ∉ t) :
    extractVarsPlaceholders (t ++ s) = extractVarsPlaceholders s := by
  induction t with
  | nil => rfl
  | cons c cs ih =>
    simp only [List.mem_cons, not_or] at ht
    rw [List.cons_append, extract_cons_of_none (matchAt_none_of_head _ (Ne.symm ht.1)), ih ht.2]

theorem lazyBody_append {x : Str} (rest : Str) (h1 : rbrace ∉ x) (h2 : newline ∉ x) :
    lazyBody (x ++ closeDelim ++ rest) = some (x, rest) := by
  induction x with
  | nil =>
    have hp : closeDelim <+: rbrace :: (rbrace :: rest) := ⟨rest, rfl⟩
    show lazyBody (rbrace :: (rbrace :: rest)) = some ([], rest)
    unfold lazyBody
    rw [if_pos hp]
    rfl
  | cons d ds ih =>
    simp only [List.mem_cons, not_or] at h1 h2
    have hp : ¬ closeDelim <+: d :: (ds ++ closeDelim ++ rest) := by
      intro hp
      have hp2 : rbrace :: [rbrace] <+: d :: (ds ++ closeDelim ++ rest) := hp
      rw [List.cons_prefix_cons] at hp2
      exact h1.1 hp2.1
    show lazyBody (d :: (ds ++ closeDelim ++ rest)) = some (d :: ds, rest)
    unfold lazyBody
    rw [if_neg hp, if_neg (Ne.symm h2.1), ih h1.2 h2.2]

/-- At a placeholder whose name is non-empty and free of `rbrace` and line
feed, the expression matches exactly the placeholder. -/
theorem matchAt_placeholder {n : Str} (rest : Str) (hn : n ≠ []) (h1 : rbrace ∉ n)
    (h2 : newline ∉ n) : matchAt (placeholder n ++ rest) = some (placeholder n, rest) := by
  obtain ⟨c, cs, rfl⟩ := List.exists_cons_of_ne_nil hn
  simp only [List.mem_cons, not_or] at h1 h2
  show matchAt (lbrace :: lbrace :: c :: (cs ++ closeDelim ++ rest)) = _
  unfold matchAt
  simp only [true_and, ne_eq, Ne.symm h2.1, not_false_eq_true, if_true,
    lazyBody_append rest h1.2 h2.2]
  rfl

theorem extract_fill {n : Str} (ts : List Str) (hn : n ≠ []) (h1 : rbrace ∉ n)
    (h2 : newline ∉ n) (hts : ∀ t ∈ ts, lbrace ∉ t) :
    extractVarsPlaceholders (fill (placeholder n) ts) = ts.map (fun _ => placeholder n) := by
  induction ts with
  | nil => rfl
  | cons t ts ih =>
    show extractVarsPlaceholders (placeholder n ++ t ++ fill (placeholder n) ts) = _
    rw [List.append_assoc, extract_of_match (matchAt_placeholder _ hn h1 h2),
      extract_append_of_not_mem _ (hts t (List.mem_cons_self _ _)),
      ih (fun u hu => hts u (List.mem_cons_of_mem _ hu))]
    rfl

theorem openDelim_ne_nil : openDelim ≠ [] := by decide

theorem closeDelim_ne_nil : closeDelim ≠ [] := by decide

theorem placeholder_ne_nil (n : Str) : placeholder n ≠ [] := by
  simp [placeholder, openDelim]

/-- The name computed from a placeholder whose name is free of `rbrace`. -/
theorem varNameOf_placeholder {n : Str} (h1 : rbrace ∉ n) : varNameOf (placeholder n) = n := by
  have hc1 : Cut openDelim ([] ++ openDelim ++ (n ++ closeDelim)) = some ([], n ++ closeDelim) :=
    Cut_append _ (by decide)
  have hc2 : Cut closeDelim (n ++ closeDelim ++ []) = some (n, []) := by
    apply Cut_append
    intro hi
    have hi2 : rbrace :: [rbrace] <:+: n ++ [rbrace] := hi
    rw [infix_append_of_head_not_mem h1] at hi2
    have := hi2.length_le
    simp at this
  have e1 : placeholder n = [] ++ openDelim ++ (n ++ closeDelim) := by
    simp [placeholder]
  unfold varNameOf
  rw [e1, Replace_one_of_Cut_some [] openDelim_ne_nil hc1]
  have e2 : ([] : Str) ++ [] ++ (n ++ closeDelim) = n ++ closeDelim ++ [] := by simp
  rw [e2, Replace_one_of_Cut_some [] closeDelim_ne_nil hc2]
  simp

theorem placeholder_eq_cons (n : Str) :
    placeholder n = lbrace :: (lbrace :: n ++ closeDelim) := rfl

theorem Cut_placeholder_append {n t : Str} (rest : Str) (ht : lbrace ∉ t) :
    Cut (placeholder n) (t ++ placeholder n ++ rest) = some (t, rest) := by
  apply Cut_append
  intro hi
  rw [placeholder_eq_cons, infix_append_of_head_not_mem ht] at hi
  have := hi.length_le
  simp only [List.length_dropLast, List.length_cons] at this
  omega

theorem Cut_placeholder_none {n t : Str} (ht : lbrace ∉ t) : Cut (placeholder n) t = none :=
  Cut_none (placeholder_ne_nil n)
    (fun hi => ht (hi.subset (by simp [placeholder, openDelim])))

/-- Replacing every copy of the placeholder in a text made of segments free
of `lbrace` puts the value in the place of each copy. -/
theorem Replace_fill {n v : Str} (ts : List Str) (t : Str) (ht : lbrace ∉ t)
    (hts : ∀ u ∈ ts, lbrace ∉ u) :
    Replace (t ++ fill (placeholder n) ts) (placeholder n) v (-1) = t ++ fill v ts := by
  induction ts generalizing t with
  | nil =>
    simp only [fill, List.append_nil]
    exact Replace_all_of_Cut_none v (Cut_placeholder_none ht)
  | cons u us ih =>
    have hc : Cut (placeholder n) (t ++ placeholder n ++ (u ++ fill (placeholder n) us))
        = some (t, u ++ fill (placeholder n) us) := Cut_placeholder_append _ ht
    have e : t ++ fill (placeholder n) (u :: us)
        = t ++ placeholder n ++ (u ++ fill (placeholder n) us) := by
      simp [fill]
    rw [e, Replace_all_of_Cut_some v (placeholder_ne_nil n) hc,
      ih u (hts u (List.mem_cons_self _ _)) (fun w hw => hts w (List.mem_cons_of_mem _ hw))]
    simp [fill]

/-- Two texts free of the opening delimiter stay free of it when joined,
unless the first ends with `lbrace`. -/
theorem openDelim_not_infix_append {a b : Str} (ha : ¬ openDelim <:+: a)
    (hl : a.getLast? ≠ some lbrace) (hb : ¬ openDelim <:+: b) :
    ¬ openDelim <:+: a ++ b := by
  induction a with
  | nil => simpa using hb
  | cons c cs ih =>
    intro hi
    have hi2 : lbrace :: [lbrace] <:+: c :: (cs ++ b) := hi
    rw [List.infix_cons_iff] at hi2
    rcases hi2 with hp | hin
    · rw [List.cons_prefix_cons] at hp
      obtain ⟨hc, hp⟩ := hp
      cases cs with
      | nil =>
        apply hl
        simp [hc]
      | cons d ds =>
        rw [List.cons_append, List.cons_prefix_cons] at hp
        apply ha
        refine List.IsPrefix.isInfix ⟨ds, ?_⟩
        rw [← hc, ← hp.1]
        rfl
    · have ha2 : ¬ openDelim <:+: cs := fun h =>
        ha (h.trans (List.suffix_cons c cs).isInfix)
      have hl2 : cs.getLast? ≠ some lbrace := by
        cases cs with
        | nil => simp
        | cons d ds => simpa [List.getLast?_cons_cons] using hl
      exact ih ha2 hl2 hin

theorem openDelim_not_infix_of_not_mem {t : Str} (ht : lbrace ∉ t) : ¬ openDelim <:+: t :=
  fun hi => ht (hi.subset (by simp [openDelim]))

theorem getLast?_ne_of_not_mem {t : Str} (ht : lbrace ∉ t) : t.getLast? ≠ some lbrace :=
  fun h => ht (List.mem_of_mem_getLast? h)

theorem openDelim_not_infix_fill {v : Str} (ts : List Str) (hv : ¬ openDelim <:+: v)
    (hl : v.getLast? ≠ some lbrace) (hts : ∀ u ∈ ts, lbrace ∉ u) :
    ¬ openDelim <:+: fill v ts := by
  induction ts with
  | nil =>
    intro hi
    exact openDelim_ne_nil (List.infix_nil.mp hi)
  | cons u us ih =>
    have hu := hts u (List.mem_cons_self _ _)
    have h1 := openDelim_not_infix_append (openDelim_not_infix_of_not_mem hu)
      (getLast?_ne_of_not_mem hu) (ih (fun w hw => hts w (List.mem_cons_of_mem _ hw)))
    have h2 := openDelim_not_infix_append hv hl h1
    simpa [fill] using h2

/-- Once the working text holds no copy of the placeholder, the remaining
rounds for that placeholder leave it as it is. -/
theorem resolveLoop_fixed {m : VarMap} {st1 : Store} {n v : Str}
    (hst : Variables st1 = .ok (m, st1)) (hget : mapGet m n = some v) (h1 : rbrace ∉ n)
    (str : Str) (hfix : Replace str (placeholder n) v (-1) = str) (ps : List Str)
    (hps : ∀ p ∈ ps, p = placeholder n) :
    resolveLoop ps str st1 = .ok (str, st1) := by
  induction ps with
  | nil => rfl
  | cons p ps ih =>
    have hp := hps p (List.mem_cons_self _ _)
    subst hp
    unfold resolveLoop
    rw [varNameOf_placeholder h1, GetVariable_of_present hst hget]
    simp only [hfix]
    exact ih (fun q hq => hps q (List.mem_cons_of_mem _ hq))

/-- The loop stops with the fatal error at the first match whose name the
store does not hold. -/
theorem resolveLoop_missing {m : VarMap} (ps : List Str) (str : Str) (st st1 : Store)
    (hst : Variables st = .ok (m, st1))
    (hmiss : ∃ p ∈ ps, mapGet m (varNameOf p) = none) :
    ∃ p ∈ ps, mapGet m (varNameOf p) = none ∧
      resolveLoop ps str st = .error (.fatal (.doesNotExist (varNameOf p))) := by
  induction ps generalizing str st with
  | nil =>
    obtain ⟨p, hp, _⟩ := hmiss
    simp at hp
  | cons q qs ih =>
    cases hg : mapGet m (varNameOf q) with
    | none =>
      refine ⟨q, List.mem_cons_self _ _, hg, ?_⟩
      unfold resolveLoop
      rw [GetVariable_of_absent hst hg]
    | some val =>
      have hmiss2 : ∃ p ∈ qs, mapGet m (varNameOf p) = none := by
        obtain ⟨p, hp, hnone⟩ := hmiss
        rcases List.mem_cons.mp hp with rfl | hp2
        · rw [hg] at hnone
          simp at hnone
        · exact ⟨p, hp2, hnone⟩
      obtain ⟨p, hp, hnone, hres⟩ :=
        ih (Replace str q val (-1)) st1 (Variables_idem hst) hmiss2
      refine ⟨p, List.mem_cons_of_mem _ hp, hnone, ?_⟩
      unfold resolveLoop
      rw [GetVariable_of_present hst hg]
      exact hres

theorem splitLoop_ne_nil (sep : Str) (n : Nat) (s : Str) : splitLoop sep n s ≠ [] := by
  cases n with
  | zero => simp [splitLoop]
  | succ n =>
    unfold splitLoop
    split <;> simp

/-- A record that contains the name/value delimiter splits into at least
two pieces. -/
theorem Split_of_delimited {r : Str} (h : nameValPairSep <:+: r) :
    ∃ name val rest, Split r nameValPairSep = name :: val :: rest := by
  obtain ⟨b, a, hc⟩ := Cut_isSome_of_infix h
  rw [Split_of_Cut_some nameValPairSep_ne_nil hc]
  have hne : Split a nameValPairSep ≠ [] := by
    unfold Split
    rw [if_neg nameValPairSep_ne_nil]
    exact splitLoop_ne_nil _ _ _
  obtain ⟨x, xs, hx⟩ := List.exists_cons_of_ne_nil hne
  exact ⟨b, x, xs, by rw [hx]⟩

theorem parseLoop_ok_of_delimited (rs : List Str) (res : VarMap)
    (h : ∀ r ∈ rs, nameValPairSep <:+: r) : ∃ m, parseLoop rs res = .ok m := by
  induction rs generalizing res with
  | nil => exact ⟨res, rfl⟩
  | cons r rs ih =>
    obtain ⟨name, val, rest, hs⟩ := Split_of_delimited (h r (List.mem_cons_self _ _))
    unfold parseLoop
    rw [hs]
    exact ih _ (fun q hq => h q (List.mem_cons_of_mem _ hq))

/-- When every record of a text holds the name/value delimiter,
`parseCacheFileContent` returns a mapping. -/
theorem parse_ok_of_delimited (content : Str)
    (h : ∀ r ∈ Split content pairSep, nameValPairSep <:+: r) :
    ∃ m, parseCacheFileContent content = .ok m :=
  parseLoop_ok_of_delimited _ _ h

/-- What a lazy body is: the text up to the first closing delimiter that
comes after it. -/
theorem lazyBody_spec {s b r : Str} (h : lazyBody s = some (b, r)) :
    s = b ++ closeDelim ++ r ∧ ¬ closeDelim <:+: b ++ [rbrace] := by
  induction s generalizing b with
  | nil => simp [lazyBody] at h
  | cons c cs ih =>
    unfold lazyBody at h
    split at h
    · rename_i hp
      simp only [Option.some.injEq, Prod.mk.injEq] at h
      obtain ⟨rfl, rfl⟩ := h
      have hp2 : rbrace :: [rbrace] <+: c :: cs := hp
      rw [List.cons_prefix_cons] at hp2
      obtain ⟨hc, hp3⟩ := hp2
      cases cs with
      | nil => simp at hp3
      | cons d ds =>
        rw [List.cons_prefix_cons] at hp3
        refine ⟨by rw [← hc, ← hp3.1]; rfl, ?_⟩
        intro hi
        have := hi.length_le
        simp [closeDelim] at this
    · rename_i hp
      split at h
      · simp at h
      · cases hc : lazyBody cs with
        | none => simp [hc] at h
        | some q =>
          obtain ⟨b1, r1⟩ := q
          simp only [hc, Option.some.injEq, Prod.mk.injEq] at h
          obtain ⟨rfl, rfl⟩ := h
          obtain ⟨hcs, hmin⟩ := ih hc
          refine ⟨by rw [hcs]; simp, ?_⟩
          intro hi
          rw [List.cons_append, List.infix_cons_iff] at hi
          rcases hi with hpre | hin
          · apply hp
            refine hpre.trans ⟨rbrace :: r1, ?_⟩
            rw [hcs]
            simp [closeDelim]
          · exact hmin hin

theorem matchAt_spec {s p r : Str} (h : matchAt s = some (p, r)) :
    ∃ c b, p = lbrace :: lbrace :: c :: b ++ closeDelim ∧ ¬ closeDelim <:+: b ++ [rbrace] := by
  unfold matchAt at h
  split at h
  · rename_i a b c cs
    split at h
    · rename_i hab
      cases hc : lazyBody cs with
      | none => simp [hc] at h
      | some q =>
        obtain ⟨b1, r1⟩ := q
        simp only [hc, Option.some.injEq, Prod.mk.injEq] at h
        obtain ⟨rfl, _⟩ := h
        exact ⟨c, b1, by rw [hab.1, hab.2.1], (lazyBody_spec hc).2⟩
    · simp at h
  · simp at h

theorem findLoop_mem (n : Nat) (s p : Str) (h : p ∈ findLoop n s) :
    ∃ t r, matchAt t = some (p, r) := by
  induction n generalizing s with
  | zero => simp [findLoop] at h
  | succ n ih =>
    cases hc : matchAt s with
    | some q =>
      obtain ⟨x, r⟩ := q
      simp only [findLoop, hc, List.mem_cons] at h
      rcases h with rfl | h
      · exact ⟨s, r, hc⟩
      · exact ih r h
    | none =>
      cases s with
      | nil => simp [findLoop, hc] at h
      | cons c cs =>
        simp only [findLoop, hc] at h
        exact ih cs h

theorem dropLast_dropLast_append_pair (x : Str) (a b : Char) :
    ((x ++ [a, b]).dropLast).dropLast = x := by
  have e : x ++ [a, b] = (x ++ [a]) ++ [b] := by simp
  rw [e, List.dropLast_concat, List.dropLast_concat]

/-- The name `replaceVars` computes from a match is the match with its
delimiters stripped, as soon as the stripped text does not itself start
with the closing delimiter. -/
theorem varNameOf_eq_stripDelims (s p : Str) (hp : p ∈ extractVarsPlaceholders s)
    (hb : ¬ closeDelim <+: stripDelims p) : varNameOf p = stripDelims p := by
  obtain ⟨t, r, hm⟩ := findLoop_mem _ _ _ hp
  obtain ⟨c, b, rfl, hmin⟩ := matchAt_spec hm
  have hstrip : stripDelims (lbrace :: lbrace :: c :: b ++ closeDelim) = c :: b := by
    show (((c :: b ++ [rbrace, rbrace]).dropLast).dropLast) = c :: b
    exact dropLast_dropLast_append_pair (c :: b) rbrace rbrace
  rw [hstrip] at hb ⊢
  have hc1 : Cut openDelim ([] ++ openDelim ++ (c :: b ++ closeDelim))
      = some ([], c :: b ++ closeDelim) := Cut_append _ (by decide)
  have e1 : lbrace :: lbrace :: c :: b ++ closeDelim
      = [] ++ openDelim ++ (c :: b ++ closeDelim) := rfl
  unfold varNameOf
  rw [e1, Replace_one_of_Cut_some [] openDelim_ne_nil hc1]
  by_cases hcb : closeDelim <+: c :: (b ++ [rbrace])
  · have hcb2 : rbrace :: [rbrace] <+: c :: (b ++ [rbrace]) := hcb
    rw [List.cons_prefix_cons] at hcb2
    obtain ⟨hc, hrest⟩ := hcb2
    cases b with
    | nil =>
      subst hc
      decide
    | cons d ds =>
      rw [List.cons_append, List.cons_prefix_cons] at hrest
      exfalso
      apply hb
      refine ⟨ds, ?_⟩
      rw [← hc, ← hrest.1]
      rfl
  · have hno : ¬ closeDelim <:+: (c :: b) ++ closeDelim.dropLast := by
      intro hi
      have hi2 : closeDelim <:+: c :: (b ++ [rbrace]) := hi
      rw [List.infix_cons_iff] at hi2
      rcases hi2 with h1 | h1
      · exact hcb h1
      · exact hmin h1
    have hc2 : Cut closeDelim ((c :: b) ++ closeDelim ++ []) = some (c :: b, []) :=
      Cut_append _ hno
    have e2 : ([] : Str) ++ [] ++ (c :: b ++ closeDelim) = (c :: b) ++ closeDelim ++ [] := by
      simp
    rw [e2, Replace_one_of_Cut_some [] closeDelim_ne_nil hc2]
    simp

/-! ## The codec claims -/

/-- Claim C1, evaluated on a mapping the store accepts. The mapping with
`a` bound to the empty text and `b` bound to `x` has separator-free names
and values and one entry per name; when `save` emits `a` before `b` the
saved text holds three separators in a row, the first two are taken as the
record join, the record `a=` has no name/value delimiter, and decoding
stops with the index-out-of-range panic instead of returning the mapping. -/
theorem roundtrip_fails_on_empty_value :
    (∀ p ∈ [("a".toList, ([] : Str)), ("b".toList, "x".toList)], zwsp ∉ p.1 ∧ zwsp ∉ p.2) ∧
    ([("a".toList, ([] : Str)), ("b".toList, "x".toList)].map Prod.fst).Nodup ∧
    saveText [("a".toList, []), ("b".toList, "x".toList)]
      = "a=".toList ++ [zwsp, zwsp, zwsp] ++ "b=".toList ++ [zwsp] ++ "x".toList ∧
    Split (saveText [("a".toList, []), ("b".toList, "x".toList)]) pairSep
      = ["a=".toList, [zwsp] ++ "b=".toList ++ [zwsp] ++ "x".toList] ∧
    decodeCache (saveText [("a".toList, []), ("b".toList, "x".toList)])
      = .error .indexOutOfRange := by
  decide

/-- Claim C2: for every name and value free of the separator (either may
be empty, the name may contain `=`), the text `save` writes for the
one-entry mapping is name, `=`, separator, value, and
`parseCacheFileContent` decodes it to exactly that one-entry mapping. -/
theorem single_entry_roundtrip (name value : Str) (hn : zwsp ∉ name) (hv : zwsp ∉ value) :
    saveText [(name, value)] = name ++ [Char.ofNat 61] ++ separator ++ value ∧
    parseCacheFileContent (saveText [(name, value)]) = .ok [(name, value)] := by
  refine ⟨by simp [saveText, Join, pairText, nameValPairSep], ?_⟩
  show parseLoop (Split (pairText (name, value)) pairSep) [] = _
  rw [Split_of_Cut_none pairSep_ne_nil
    (Cut_none pairSep_ne_nil (pairSep_not_infix_pairText hn hv))]
  simp [parseLoop, Split_pairText hn hv, mapSet]

theorem single_entry_roundtrip_witness :
    (zwsp ∉ "a=b".toList ∧ zwsp ∉ ([] : Str)) ∧
    parseCacheFileContent (saveText [("a=b".toList, [])]) = .ok [("a=b".toList, [])] ∧
    parseCacheFileContent (saveText [([], "v".toList)]) = .ok [([], "v".toList)] :=
  ⟨by decide, (single_entry_roundtrip "a=b".toList [] (by decide) (by decide)).2,
    (single_entry_roundtrip [] "v".toList (by decide) (by decide)).2⟩

/-- Claim C9, evaluated on a non-empty cache text whose only record has no
name/value delimiter (a plain `=` without the separator): the record splits
into one piece, and `parseCacheFileContent` stops with the
index-out-of-range panic at `aux[1]` instead of returning a mapping. -/
theorem parse_panics_without_delimiter :
    "name=value".toList ≠ [] ∧
    Split "name=value".toList nameValPairSep = ["name=value".toList] ∧
    parseCacheFileContent "name=value".toList = .error .indexOutOfRange := by
  decide

/-- Claim C10: for every mapping (one entry per name) whose names and
values are free of the separator and whose values are all non-empty, and
for every order `ord` in which `save` emits its entries, the saved text
splits at the doubled separator into exactly the records, and the decoding
of `loadCache` returns a mapping with the same entries and the same
lookups as the original. -/
theorem roundtrip_nonempty_values (M ord : VarMap) (hkeys : (M.map Prod.fst).Nodup)
    (hord : ord.Perm M) (hsep : ∀ p ∈ M, zwsp ∉ p.1 ∧ zwsp ∉ p.2)
    (hval : ∀ p ∈ M, p.2 ≠ []) :
    (ord ≠ [] → Split (saveText ord) pairSep = ord.map pairText) ∧
    ∃ m, decodeCache (saveText ord) = .ok m ∧ m.Perm M ∧ (m.map Prod.fst).Nodup ∧
      ∀ k, mapGet m k = mapGet M k := by
  have hkeys2 : (ord.map Prod.fst).Nodup := (hord.map Prod.fst).nodup_iff.mpr hkeys
  have hsep2 : ∀ p ∈ ord, zwsp ∉ p.1 ∧ zwsp ∉ p.2 := fun p hp => hsep p (hord.mem_iff.mp hp)
  have hval2 : ∀ p ∈ ord.dropLast, p.2 ≠ [] := fun p hp =>
    hval p (hord.mem_iff.mp (List.mem_of_mem_dropLast hp))
  refine ⟨fun hne => Split_saveText ord hne hsep2 hval2, ord, ?_, hord, hkeys2, ?_⟩
  · exact decodeCache_saveText ord hkeys2 hsep2 hval2
  · exact fun k => mapGet_perm hkeys hord k

theorem roundtrip_nonempty_values_witness :
    (([("a".toList, "1".toList), ([], "2".toList)] : VarMap).map Prod.fst).Nodup ∧
    decodeCache (saveText [([], "2".toList), ("a".toList, "1".toList)])
      = .ok [([], "2".toList), ("a".toList, "1".toList)] ∧
    ∃ m, decodeCache (saveText [([], "2".toList), ("a".toList, "1".toList)]) = .ok m ∧
      m.Perm [("a".toList, "1".toList), ([], "2".toList)] ∧ (m.map Prod.fst).Nodup ∧
      ∀ k, mapGet m k = mapGet [("a".toList, "1".toList), ([], "2".toList)] k :=
  ⟨by decide, by decide,
    (roundtrip_nonempty_values [("a".toList, "1".toList), ([], "2".toList)]
      [([], "2".toList), ("a".toList, "1".toList)] (by decide) (by decide) (by decide)
      (by decide)).2⟩

/-! ## The store claims -/

/-- Claim C3: in every store whose mapping (as `Variables()` returns it)
does not hold `n`, `AddVariable(n, v)` succeeds and leaves the mapping with
`n` set to `v` and the file rewritten from it; a following `GetVariable(n)`
returns `v`; a second `AddVariable(n, w)` returns the already-exists error
carrying the existing value `v`, with the state (mapping and file text)
exactly as before that call. -/
theorem add_then_get_then_add (iter : VarMap → List (Str × Str)) (st st1 : Store)
    (m : VarMap) (n v w : Str) (hvars : Variables st = .ok (m, st1))
    (habs : mapGet m n = none) :
    ∃ st2, AddVariable iter n v st = .ok (none, st2) ∧
      st2.varsCache = some (mapSet m n v) ∧
      st2.file = some (saveText (iter (mapSet m n v))) ∧
      GetVariable n st2 = .ok (.ok v, st2) ∧
      AddVariable iter n w st2 = .ok (some (.alreadyExists n v), st2) := by
  have hst2 : Variables (⟨some (mapSet m n v), some (saveText (iter (mapSet m n v)))⟩ : Store)
      = .ok (mapSet m n v, ⟨some (mapSet m n v), some (saveText (iter (mapSet m n v)))⟩) :=
    Variables_of_loaded rfl
  refine ⟨⟨some (mapSet m n v), some (saveText (iter (mapSet m n v)))⟩, ?_, rfl, rfl, ?_, ?_⟩
  · unfold AddVariable
    rw [hvars]
    simp only [habs]
    rw [setVariable_of_Variables iter (Variables_idem hvars)]
  · exact GetVariable_of_present hst2 (mapGet_mapSet_self m n v)
  · unfold AddVariable
    rw [hst2]
    simp only [mapGet_mapSet_self]

theorem add_then_get_then_add_witness :
    Variables ⟨none, none⟩ = .ok ([], ⟨some [], some []⟩) ∧
    mapGet [] "x".toList = none ∧
    ∃ st2, AddVariable id "x".toList "1".toList ⟨none, none⟩ = .ok (none, st2) ∧
      st2.varsCache = some (mapSet [] "x".toList "1".toList) ∧
      st2.file = some (saveText (id (mapSet [] "x".toList "1".toList))) ∧
      GetVariable "x".toList st2 = .ok (.ok "1".toList, st2) ∧
      AddVariable id "x".toList "2".toList st2
        = .ok (some (.alreadyExists "x".toList "1".toList), st2) :=
  ⟨by decide, by decide,
    add_then_get_then_add id ⟨none, none⟩ ⟨some [], some []⟩ [] "x".toList "1".toList
      "2".toList (by decide) (by decide)⟩

/-- Claim C4: in every store whose mapping (as `Variables()` returns it) is
`m`: when `n` is absent, `ModifyVariable(n, v)` returns the not-found error
and the state is the one `Variables()` alone leaves (the mapping is `m`, a
loaded store is untouched, an existing file keeps its text); when `n` is
present, it succeeds, a following `GetVariable(n)` returns `v`, and every
other name has the lookup it had before. -/
theorem modify_absent_or_present (iter : VarMap → List (Str × Str)) (st st1 : Store)
    (m : VarMap) (n v : Str) (hvars : Variables st = .ok (m, st1)) :
    (mapGet m n = none →
      ModifyVariable iter n v st = .ok (some (.doesNotExist n), st1) ∧
      st1.varsCache = some m ∧ (st.varsCache ≠ none → st1 = st) ∧
      (st.file ≠ none → st1.file = st.file)) ∧
    (∀ old, mapGet m n = some old →
      ∃ st2 m2, ModifyVariable iter n v st = .ok (none, st2) ∧
        Variables st2 = .ok (m2, st2) ∧
        GetVariable n st2 = .ok (.ok v, st2) ∧
        ∀ k, k ≠ n → mapGet m2 k = mapGet m k) := by
  constructor
  · intro habs
    refine ⟨?_, Variables_ok hvars⟩
    unfold ModifyVariable
    rw [GetVariable_of_absent hvars habs]
  · intro old hold
    have hst2 : Variables (⟨some (mapSet m n v), some (saveText (iter (mapSet m n v)))⟩ : Store)
        = .ok (mapSet m n v, ⟨some (mapSet m n v), some (saveText (iter (mapSet m n v)))⟩) :=
      Variables_of_loaded rfl
    refine ⟨⟨some (mapSet m n v), some (saveText (iter (mapSet m n v)))⟩, mapSet m n v,
      ?_, hst2, ?_, ?_⟩
    · unfold ModifyVariable
      rw [GetVariable_of_present hvars hold]
      simp only
      rw [setVariable_of_Variables iter (Variables_idem hvars)]
    · exact GetVariable_of_present hst2 (mapGet_mapSet_self m n v)
    · exact fun k hk => mapGet_mapSet_ne m n v k hk

theorem modify_absent_or_present_witness :
    Variables exampleStore = .ok (exampleVars, exampleStore) ∧
    ModifyVariable id "c".toList "9".toList exampleStore
      = .ok (some (.doesNotExist "c".toList), exampleStore) ∧
    ∃ st2 m2, ModifyVariable id "a".toList "9".toList exampleStore = .ok (none, st2) ∧
      Variables st2 = .ok (m2, st2) ∧
      GetVariable "a".toList st2 = .ok (.ok "9".toList, st2) ∧
      ∀ k, k ≠ "a".toList → mapGet m2 k = mapGet exampleVars k :=
  ⟨by decide,
    ((modify_absent_or_present id exampleStore exampleStore exampleVars "c".toList
      "9".toList (by decide)).1 (by decide)).1,
    (modify_absent_or_present id exampleStore exampleStore exampleVars "a".toList
      "9".toList (by decide)).2 "1".toList (by decide)⟩

/-- Claim C5: in every store whose mapping (as `Variables()` returns it) is
`m`: when `n` is absent, `RemoveVariable(n)` returns its not-found error
and the state is the one `Variables()` alone leaves (the mapping is `m`, a
loaded store is untouched); when `n` is present, it succeeds, a following
`GetVariable(n)` returns the not-found error, and every other name has the
lookup it had before. -/
theorem remove_absent_or_present (iter : VarMap → List (Str × Str)) (st st1 : Store)
    (m : VarMap) (n : Str) (hvars : Variables st = .ok (m, st1)) :
    (mapGet m n = none →
      RemoveVariable iter n st = .ok (some (.namedDoesNotExist n), st1) ∧
      st1.varsCache = some m ∧ (st.varsCache ≠ none → st1 = st) ∧
      (st.file ≠ none → st1.file = st.file)) ∧
    (∀ old, mapGet m n = some old →
      ∃ st2 m2, RemoveVariable iter n st = .ok (none, st2) ∧
        Variables st2 = .ok (m2, st2) ∧
        GetVariable n st2 = .ok (.error (.doesNotExist n), st2) ∧
        ∀ k, k ≠ n → mapGet m2 k = mapGet m k) := by
  constructor
  · intro habs
    refine ⟨?_, Variables_ok hvars⟩
    unfold RemoveVariable
    rw [hvars]
    simp only [habs]
  · intro old hold
    have hst2 : Variables (⟨some (mapDelete m n), some (saveText (iter (mapDelete m n)))⟩ : Store)
        = .ok (mapDelete m n, ⟨some (mapDelete m n), some (saveText (iter (mapDelete m n)))⟩) :=
      Variables_of_loaded rfl
    refine ⟨⟨some (mapDelete m n), some (saveText (iter (mapDelete m n)))⟩, mapDelete m n,
      ?_, hst2, ?_, ?_⟩
    · unfold RemoveVariable
      rw [hvars]
      simp only [hold]
      rw [Variables_idem hvars]
      simp only
      unfold save
      rw [Variables_of_loaded (m := mapDelete m n) rfl]
    · exact GetVariable_of_absent hst2 (mapGet_mapDelete_self m n)
    · exact fun k hk => mapGet_mapDelete_ne m n k hk

theorem remove_absent_or_present_witness :
    Variables exampleStore = .ok (exampleVars, exampleStore) ∧
    RemoveVariable id "c".toList exampleStore
      = .ok (some (.namedDoesNotExist "c".toList), exampleStore) ∧
    ∃ st2 m2, RemoveVariable id "a".toList exampleStore = .ok (none, st2) ∧
      Variables st2 = .ok (m2, st2) ∧
      GetVariable "a".toList st2 = .ok (.error (.doesNotExist "a".toList), st2) ∧
      ∀ k, k ≠ "a".toList → mapGet m2 k = mapGet exampleVars k :=
  ⟨by decide,
    ((remove_absent_or_present id exampleStore exampleStore exampleVars "c".toList
      (by decide)).1 (by decide)).1,
    (remove_absent_or_present id exampleStore exampleStore exampleVars "a".toList
      (by decide)).2 "1".toList (by decide)⟩

/-! ## The resolver claims -/

/-- The resolver on a text made of segments free of `lbrace` and of one or
more copies of one placeholder: every copy is replaced by the value, as
soon as the value holds no opening delimiter and does not end with
`lbrace`. -/
theorem replaceVars_fill_of_segments (st st1 : Store) (m : VarMap) (n v t0 : Str)
    (ts : List Str) (hvars : Variables st = .ok (m, st1)) (hget : mapGet m n = some v)
    (hn : n ≠ []) (hn2 : rbrace ∉ n) (hn3 : newline ∉ n) (hv : ¬ openDelim <:+: v)
    (hv2 : v.getLast? ≠ some lbrace) (ht0 : lbrace ∉ t0) (hts : ∀ t ∈ ts, lbrace ∉ t)
    (hk : ts ≠ []) :
    replaceVars (t0 ++ fill (placeholder n) ts) st = .ok (t0 ++ fill v ts, st1) := by
  obtain ⟨u, us, rfl⟩ := List.exists_cons_of_ne_nil hk
  have hne : t0 ++ fill (placeholder n) (u :: us) ≠ [] := by
    simp [fill, placeholder, openDelim]
  have hno : ¬ openDelim <:+: t0 ++ fill v (u :: us) :=
    openDelim_not_infix_append (openDelim_not_infix_of_not_mem ht0)
      (getLast?_ne_of_not_mem ht0) (openDelim_not_infix_fill _ hv hv2 hts)
  have hpre : openDelim <:+: placeholder n :=
    List.IsPrefix.isInfix ⟨n ++ closeDelim, by simp [placeholder]⟩
  have hfix : Replace (t0 ++ fill v (u :: us)) (placeholder n) v (-1)
      = t0 ++ fill v (u :: us) :=
    Replace_all_of_Cut_none v
      (Cut_none (placeholder_ne_nil n) (fun hi => hno (hpre.trans hi)))
  unfold replaceVars
  rw [if_pos hne, extract_append_of_not_mem _ ht0, extract_fill _ hn hn2 hn3 hts,
    List.map_cons, resolveLoop, varNameOf_placeholder hn2, GetVariable_of_present hvars hget]
  simp only
  rw [Replace_fill _ _ ht0 hts]
  exact resolveLoop_fixed (Variables_idem hvars) hget hn2 _ hfix _ (by simp)

/-- Claim C6 as stated fails: the name `x` is non-empty and free of braces
and line feed, the value (`lbrace`, `x`, closing delimiter, `lbrace`) holds
no opening delimiter, the input is two adjacent copies of the placeholder
of `x`, and the resolver does not return the input with each copy replaced
by the value: the second round finds a new copy of the placeholder across
the two substituted values and replaces it again. -/
theorem straddling_value_is_resubstituted :
    ("x".toList ≠ [] ∧ lbrace ∉ "x".toList ∧ rbrace ∉ "x".toList ∧ newline ∉ "x".toList) ∧
    mapGet resolverVars "x".toList = some "\x7bx\x7d\x7d\x7b".toList ∧
    (¬ openDelim <:+: "\x7bx\x7d\x7d\x7b".toList) ∧
    fill (placeholder "x".toList) [[], []] = "\x7b\x7bx\x7d\x7d\x7b\x7bx\x7d\x7d".toList ∧
    fill "\x7bx\x7d\x7d\x7b".toList [[], []] = "\x7bx\x7d\x7d\x7b\x7bx\x7d\x7d\x7b".toList ∧
    replaceVars (fill (placeholder "x".toList) [[], []]) resolverStore
      = .ok ("\x7bx\x7d\x7d\x7bx\x7d\x7d\x7b\x7b".toList, resolverStore) ∧
    replaceVars (fill (placeholder "x".toList) [[], []]) resolverStore
      ≠ .ok (fill "\x7bx\x7d\x7d\x7b".toList [[], []], resolverStore) := by
  decide

set_option linter.unusedVariables false in
/-- Claim C6, amended: for every name `n` that is non-empty and free of
braces and line feed, every value `v` that holds no opening delimiter and
does not end with `lbrace`, and every input made of brace-free segments
and one or more copies of the placeholder of `n`, the resolver against a
store that holds `v` under `n` returns the input with every copy replaced
by `v`. -/
theorem replaceVars_replaces_every_copy (st st1 : Store) (m : VarMap) (n v t0 : Str)
    (ts : List Str) (hvars : Variables st = .ok (m, st1)) (hget : mapGet m n = some v)
    (hn : n ≠ []) (hn1 : lbrace ∉ n) (hn2 : rbrace ∉ n) (hn3 : newline ∉ n)
    (hv : ¬ openDelim <:+: v) (hv2 : v.getLast? ≠ some lbrace)
    (ht0 : lbrace ∉ t0 ∧ rbrace ∉ t0) (hts : ∀ t ∈ ts, lbrace ∉ t ∧ rbrace ∉ t)
    (hk : ts ≠ []) :
    replaceVars (t0 ++ fill (placeholder n) ts) st = .ok (t0 ++ fill v ts, st1) :=
  replaceVars_fill_of_segments st st1 m n v t0 ts hvars hget hn hn2 hn3 hv hv2 ht0.1
    (fun t ht => (hts t ht).1) hk

theorem replaceVars_replaces_every_copy_witness :
    replaceVars "\x7b\x7bid\x7d\x7d-\x7b\x7bid\x7d\x7d".toList resolverStore
      = .ok ("7-7".toList, resolverStore) ∧
    replaceVars "https://api.test/\x7b\x7bhost\x7d\x7d/v1".toList resolverStore
      = .ok ("https://api.test/example.com/v1".toList, resolverStore) :=
  ⟨replaceVars_replaces_every_copy resolverStore resolverStore resolverVars "id".toList
      "7".toList [] ["-".toList, []] (by decide) (by decide) (by decide) (by decide)
      (by decide) (by decide) (by decide) (by decide) (by decide) (by decide) (by decide),
    replaceVars_replaces_every_copy resolverStore resolverStore resolverVars "host".toList
      "example.com".toList "https://api.test/".toList ["/v1".toList] (by decide) (by decide)
      (by decide) (by decide) (by decide) (by decide) (by decide) (by decide) (by decide)
      (by decide) (by decide)⟩

/-- The resolver ends in `log.Fatal` with the not-found error of
`GetVariable` as soon as the name it computes from some match is absent
from the store, also when earlier matches name variables that are present. -/
theorem replaceVars_fatal_of_lookup_absent (s : Str) (st st1 : Store) (m : VarMap)
    (hvars : Variables st = .ok (m, st1))
    (hmiss : ∃ p ∈ extractVarsPlaceholders s, mapGet m (varNameOf p) = none) :
    ∃ p ∈ extractVarsPlaceholders s, mapGet m (varNameOf p) = none ∧
      replaceVars s st = .error (.fatal (.doesNotExist (varNameOf p))) := by
  have hne : s ≠ [] := by
    rintro rfl
    obtain ⟨p, hp, _⟩ := hmiss
    simp [extract_nil] at hp
  unfold replaceVars
  rw [if_pos hne]
  exact resolveLoop_missing _ s st st1 hvars hmiss

/-- The resolver returns no text when some match, stripped of its
delimiters, is a name absent from the store and does not itself start with
the closing delimiter: it ends in `log.Fatal` with the not-found error of
`GetVariable`. -/
theorem replaceVars_fatal_of_stripped_absent (s : Str) (st st1 : Store) (m : VarMap)
    (hvars : Variables st = .ok (m, st1))
    (hmiss : ∃ p ∈ extractVarsPlaceholders s,
      mapGet m (stripDelims p) = none ∧ ¬ closeDelim <+: stripDelims p) :
    ∃ name, mapGet m name = none ∧
      replaceVars s st = .error (.fatal (.doesNotExist name)) := by
  obtain ⟨p, hp, hnone, hb⟩ := hmiss
  have hname := varNameOf_eq_stripDelims s p hp hb
  obtain ⟨q, _, hq, hres⟩ := replaceVars_fatal_of_lookup_absent s st st1 m hvars
    ⟨p, hp, by rw [hname]; exact hnone⟩
  exact ⟨varNameOf q, hq, hres⟩

/-- Claim C7, evaluated on the input opening delimiter, closing delimiter,
`x`, closing delimiter, against a store whose only variable is named `x`,
closing delimiter. `extractVarsPlaceholders` finds the whole input as its
one match; the name of that placeholder, the match without its delimiters,
is closing delimiter, `x`, and the store does not hold it; yet
`replaceVars` does not end in the fatal failure: it looks up the name with
the first closing delimiter removed, finds the stored variable, and
returns its value as the resolved text. -/
theorem replaceVars_resolves_unstored_name :
    extractVarsPlaceholders "\x7b\x7b\x7d\x7dx\x7d\x7d".toList
      = ["\x7b\x7b\x7d\x7dx\x7d\x7d".toList] ∧
    stripDelims "\x7b\x7b\x7d\x7dx\x7d\x7d".toList = "\x7d\x7dx".toList ∧
    Variables shiftedNameStore
      = .ok ([("x\x7d\x7d".toList, "w".toList)], shiftedNameStore) ∧
    mapGet [("x\x7d\x7d".toList, "w".toList)] "\x7d\x7dx".toList = none ∧
    GetVariable "\x7d\x7dx".toList shiftedNameStore
      = .ok (.error (.doesNotExist "\x7d\x7dx".toList), shiftedNameStore) ∧
    replaceVars "\x7b\x7b\x7d\x7dx\x7d\x7d".toList shiftedNameStore
      = .ok ("w".toList, shiftedNameStore) := by
  decide

/-- Claim C8, evaluated on the input opening delimiter, closing delimiter,
`x`, closing delimiter. The expression matches the whole input (the lazy
body needs a closing delimiter after at least one character); the match
with its delimiters stripped is closing delimiter, `x`; the name
`replaceVars` computes removes the first closing delimiter instead of the
last one and is `x`, closing delimiter; so against a store that holds the
stripped name the resolver looks up the other name and ends in the fatal
error. -/
theorem varName_drops_first_closing_delimiter :
    extractVarsPlaceholders "\x7b\x7b\x7d\x7dx\x7d\x7d".toList
      = ["\x7b\x7b\x7d\x7dx\x7d\x7d".toList] ∧
    stripDelims "\x7b\x7b\x7d\x7dx\x7d\x7d".toList = "\x7d\x7dx".toList ∧
    varNameOf "\x7b\x7b\x7d\x7dx\x7d\x7d".toList = "x\x7d\x7d".toList ∧
    GetVariable "\x7d\x7dx".toList oddNameStore = .ok (.ok "v".toList, oddNameStore) ∧
    replaceVars "\x7b\x7b\x7d\x7dx\x7d\x7d".toList oddNameStore
      = .error (.fatal (.doesNotExist "x\x7d\x7d".toList)) := by
  decide

end Gocu
